import Mathlib

/-!
Verification of the scipion-em-relion conversion core
(`relion/convert/convert31.py`, `relion/convert/convert_utils.py`).

The real-valued geometry (rotation matrices, Euler decomposition) models the
external `pwem.convert.transformations` library, which is not part of this
repository; those definitions follow the spec's fixed "axis 3, then axis 2,
then axis 3 again" (szyz) convention and the library's published semantics.
Everything written to or read from a star-file row is modelled over `ℝ`
(the idealisation of the Python floats), so "equal within tolerance 1e-5"
is settled by proving exact equality in `ℝ`.
-/

namespace RelionConvert

open Real Matrix

/-- Modelled from the spec: the two-argument arctangent used by the external
transformations library; `atan2 y x` is the angle of the point `(x, y)`,
realised as the argument of the complex number `x + y*I`. -/
noncomputable def atan2 (y x : ℝ) : ℝ := Complex.arg ⟨x, y⟩

/-- Modelled from the spec: `numpy.rad2deg`, radians to degrees. -/
noncomputable def rad2deg (x : ℝ) : ℝ := x * (180 / π)

/-- Modelled from the spec: `numpy.deg2rad`, degrees to radians. -/
noncomputable def deg2rad (x : ℝ) : ℝ := x * (π / 180)

theorem deg2rad_rad2deg (x : ℝ) : deg2rad (rad2deg x) = x := by
  unfold deg2rad rad2deg
  field_simp

/-- The 3x3 rotation block of a homogeneous transform. -/
abbrev Rot3 := Matrix (Fin 3) (Fin 3) ℝ

/-- Modelled from the spec: `transformations.euler_matrix (ai, aj, ak, axes='szyz')`,
the rotation matrix built from three Euler angles in the fixed
"axis 3, then axis 2, then axis 3 again" convention; it equals
`Rz ak * Ry aj * Rz ai`, written out entrywise exactly as the library builds it. -/
noncomputable def eulerMatrix (ai aj ak : ℝ) : Rot3 :=
  !![cos ak * cos aj * cos ai - sin ak * sin ai,
     -(cos ak * cos aj * sin ai) - sin ak * cos ai,
     cos ak * sin aj;
     sin ak * cos aj * cos ai + cos ak * sin ai,
     -(sin ak * cos aj * sin ai) + cos ak * cos ai,
     sin ak * sin aj;
     -(sin aj * cos ai),
     sin aj * sin ai,
     cos aj]

/-- Modelled from the spec: `transformations.euler_from_matrix (M, axes='szyz')`,
the Euler decomposition of a rotation matrix in the same fixed convention,
including the library's degenerate branch when the repeated-axis sine is zero. -/
noncomputable def eulerFromMatrix (M : Rot3) : ℝ × ℝ × ℝ :=
  let sy := Real.sqrt (M 2 1 ^ 2 + M 2 0 ^ 2)
  if 0 < sy then
    (-atan2 (M 2 1) (M 2 0), -atan2 sy (M 2 2), -atan2 (M 1 2) (-(M 0 2)))
  else
    (-atan2 (-(M 1 0)) (M 1 1), -atan2 sy (M 2 2), 0)

theorem cos_neg_atan2 (y x r : ℝ) (hr : 0 < r) (h : x ^ 2 + y ^ 2 = r ^ 2) :
    Real.cos (-atan2 y x) = x / r := by
  have habs : Complex.abs ⟨x, y⟩ = r := by
    rw [Complex.abs_apply, Complex.normSq_mk]
    rw [show x * x + y * y = r ^ 2 by rw [← h]; ring]
    exact Real.sqrt_sq hr.le
  have hz : (⟨x, y⟩ : ℂ) ≠ 0 := by
    intro h0
    rw [h0] at habs
    simp at habs
    exact hr.ne' habs.symm
  rw [Real.cos_neg]
  unfold atan2
  rw [Complex.cos_arg hz, habs]

theorem sin_neg_atan2 (y x r : ℝ) (hr : 0 < r) (h : x ^ 2 + y ^ 2 = r ^ 2) :
    Real.sin (-atan2 y x) = -(y / r) := by
  have habs : Complex.abs ⟨x, y⟩ = r := by
    rw [Complex.abs_apply, Complex.normSq_mk]
    rw [show x * x + y * y = r ^ 2 by rw [← h]; ring]
    exact Real.sqrt_sq hr.le
  rw [Real.sin_neg]
  unfold atan2
  rw [Complex.sin_arg, habs]

theorem eulerMatrix_apply_00 (ai aj ak : ℝ) :
    eulerMatrix ai aj ak 0 0 = cos ak * cos aj * cos ai - sin ak * sin ai := by
  simp [eulerMatrix]

theorem eulerMatrix_apply_01 (ai aj ak : ℝ) :
    eulerMatrix ai aj ak 0 1 = -(cos ak * cos aj * sin ai) - sin ak * cos ai := by
  simp [eulerMatrix]

theorem eulerMatrix_apply_02 (ai aj ak : ℝ) :
    eulerMatrix ai aj ak 0 2 = cos ak * sin aj := by
  simp [eulerMatrix]

theorem eulerMatrix_apply_10 (ai aj ak : ℝ) :
    eulerMatrix ai aj ak 1 0 = sin ak * cos aj * cos ai + cos ak * sin ai := by
  simp [eulerMatrix]

theorem eulerMatrix_apply_11 (ai aj ak : ℝ) :
    eulerMatrix ai aj ak 1 1 = -(sin ak * cos aj * sin ai) + cos ak * cos ai := by
  simp [eulerMatrix]

theorem eulerMatrix_apply_12 (ai aj ak : ℝ) :
    eulerMatrix ai aj ak 1 2 = sin ak * sin aj := by
  simp [eulerMatrix]

theorem eulerMatrix_apply_20 (ai aj ak : ℝ) :
    eulerMatrix ai aj ak 2 0 = -(sin aj * cos ai) := by
  simp [eulerMatrix]

theorem eulerMatrix_apply_21 (ai aj ak : ℝ) :
    eulerMatrix ai aj ak 2 1 = sin aj * sin ai := by
  simp [eulerMatrix]

theorem eulerMatrix_apply_22 (ai aj ak : ℝ) :
    eulerMatrix ai aj ak 2 2 = cos aj := by
  simp [eulerMatrix]

theorem eulerMatrix_sy (ai aj ak : ℝ) :
    Real.sqrt (eulerMatrix ai aj ak 2 1 ^ 2 + eulerMatrix ai aj ak 2 0 ^ 2) =
      |sin aj| := by
  rw [eulerMatrix_apply_21, eulerMatrix_apply_20]
  rw [show (sin aj * sin ai) ^ 2 + (-(sin aj * cos ai)) ^ 2 =
        sin aj ^ 2 * (sin ai ^ 2 + cos ai ^ 2) by ring]
  rw [Real.sin_sq_add_cos_sq, mul_one, Real.sqrt_sq_eq_abs]

theorem sy_abs (a b : ℝ) :
    Real.sqrt ((sin b * sin a) ^ 2 + (-(sin b * cos a)) ^ 2) = |sin b| := by
  rw [show (sin b * sin a) ^ 2 + (-(sin b * cos a)) ^ 2 =
    sin b ^ 2 * (sin a ^ 2 + cos a ^ 2) by ring,
    Real.sin_sq_add_cos_sq, mul_one, Real.sqrt_sq_eq_abs]

theorem eulerFromMatrix_eulerMatrix_pos (b1 b2 b3 : ℝ) (h : 0 < sin b2) :
    eulerFromMatrix (eulerMatrix b1 b2 b3) =
      (-atan2 (sin b2 * sin b1) (-(sin b2 * cos b1)),
       -atan2 (sin b2) (cos b2),
       -atan2 (sin b3 * sin b2) (-(cos b3 * sin b2))) := by
  simp only [eulerFromMatrix, eulerMatrix_apply_21, eulerMatrix_apply_20,
    eulerMatrix_apply_22, eulerMatrix_apply_12, eulerMatrix_apply_02,
    eulerMatrix_apply_10, eulerMatrix_apply_11, sy_abs, abs_of_pos h]
  rw [if_pos h]

theorem eulerFromMatrix_eulerMatrix_neg (b1 b2 b3 : ℝ) (h : sin b2 < 0) :
    eulerFromMatrix (eulerMatrix b1 b2 b3) =
      (-atan2 (sin b2 * sin b1) (-(sin b2 * cos b1)),
       -atan2 (-sin b2) (cos b2),
       -atan2 (sin b3 * sin b2) (-(cos b3 * sin b2))) := by
  simp only [eulerFromMatrix, eulerMatrix_apply_21, eulerMatrix_apply_20,
    eulerMatrix_apply_22, eulerMatrix_apply_12, eulerMatrix_apply_02,
    eulerMatrix_apply_10, eulerMatrix_apply_11, sy_abs, abs_of_neg h]
  rw [if_pos (by linarith : (0:ℝ) < -sin b2)]

theorem eulerFromMatrix_eulerMatrix_zero (b1 b2 b3 : ℝ) (h : sin b2 = 0) :
    eulerFromMatrix (eulerMatrix b1 b2 b3) =
      (-atan2 (-(sin b3 * cos b2 * cos b1 + cos b3 * sin b1))
          (-(sin b3 * cos b2 * sin b1) + cos b3 * cos b1),
       -atan2 0 (cos b2), 0) := by
  simp only [eulerFromMatrix, eulerMatrix_apply_21, eulerMatrix_apply_20,
    eulerMatrix_apply_22, eulerMatrix_apply_12, eulerMatrix_apply_02,
    eulerMatrix_apply_10, eulerMatrix_apply_11, sy_abs]
  rw [h, abs_zero, if_neg (lt_irrefl 0)]

/-- Reconstructing a rotation from its szyz Euler decomposition recovers it
exactly, for every rotation expressible in the szyz convention; this is the
core algebraic fact behind the write-then-read round trip. -/
theorem eulerMatrix_eulerFromMatrix (b1 b2 b3 : ℝ) :
    eulerMatrix (eulerFromMatrix (eulerMatrix b1 b2 b3)).1
      (eulerFromMatrix (eulerMatrix b1 b2 b3)).2.1
      (eulerFromMatrix (eulerMatrix b1 b2 b3)).2.2 = eulerMatrix b1 b2 b3 := by
  rcases lt_trichotomy (sin b2) 0 with hneg | hz | hpos
  · rw [eulerFromMatrix_eulerMatrix_neg b1 b2 b3 hneg]
    have hr : (0:ℝ) < -sin b2 := by linarith
    have hne : -sin b2 ≠ 0 := hr.ne'
    have hx1 : (-(sin b2 * cos b1)) ^ 2 + (sin b2 * sin b1) ^ 2 = (-sin b2) ^ 2 := by
      rw [show (-(sin b2 * cos b1)) ^ 2 + (sin b2 * sin b1) ^ 2 =
        sin b2 ^ 2 * (sin b1 ^ 2 + cos b1 ^ 2) by ring, Real.sin_sq_add_cos_sq]
      ring
    have hx3 : (-(cos b3 * sin b2)) ^ 2 + (sin b3 * sin b2) ^ 2 = (-sin b2) ^ 2 := by
      rw [show (-(cos b3 * sin b2)) ^ 2 + (sin b3 * sin b2) ^ 2 =
        sin b2 ^ 2 * (sin b3 ^ 2 + cos b3 ^ 2) by ring, Real.sin_sq_add_cos_sq]
      ring
    have hx2 : (cos b2) ^ 2 + (-sin b2) ^ 2 = (1:ℝ) ^ 2 := by
      rw [show (cos b2) ^ 2 + (-sin b2) ^ 2 = sin b2 ^ 2 + cos b2 ^ 2 by ring,
        Real.sin_sq_add_cos_sq, one_pow]
    have hca := cos_neg_atan2 (sin b2 * sin b1) (-(sin b2 * cos b1)) (-sin b2) hr hx1
    have hsa := sin_neg_atan2 (sin b2 * sin b1) (-(sin b2 * cos b1)) (-sin b2) hr hx1
    have hcb := cos_neg_atan2 (-sin b2) (cos b2) 1 one_pos hx2
    have hsb := sin_neg_atan2 (-sin b2) (cos b2) 1 one_pos hx2
    have hcc := cos_neg_atan2 (sin b3 * sin b2) (-(cos b3 * sin b2)) (-sin b2) hr hx3
    have hsc := sin_neg_atan2 (sin b3 * sin b2) (-(cos b3 * sin b2)) (-sin b2) hr hx3
    have hne2 : sin b2 ≠ 0 := hneg.ne
    rw [neg_div_neg_eq, mul_div_cancel_left₀ _ hne2] at hca
    rw [div_neg, neg_neg, mul_div_cancel_left₀ _ hne2] at hsa
    rw [div_one] at hcb
    rw [div_one, neg_neg] at hsb
    rw [neg_div_neg_eq, mul_div_cancel_right₀ _ hne2] at hcc
    rw [div_neg, neg_neg, mul_div_cancel_right₀ _ hne2] at hsc
    ext i j
    fin_cases i <;> fin_cases j <;>
      simp only [eulerMatrix, Matrix.cons_val', Matrix.cons_val_zero, Matrix.empty_val',
        Matrix.cons_val_fin_one, Matrix.cons_val_one, Matrix.head_cons,
        Matrix.head_fin_const, Matrix.of_apply, Matrix.cons_val_two, Matrix.tail_cons] <;>
      simp only [hca, hsa, hcb, hsb, hcc, hsc]
  · have hsq : (cos b2 - 1) * (cos b2 + 1) = 0 := by
      have := Real.sin_sq_add_cos_sq b2
      rw [hz] at this
      nlinarith [this]
    rw [eulerFromMatrix_eulerMatrix_zero b1 b2 b3 hz]
    rcases mul_eq_zero.1 hsq with h1 | h1
    · have hc1 : cos b2 = 1 := by linarith
      rw [hc1]
      have hx1 : (-(sin b3 * 1 * sin b1) + cos b3 * cos b1) ^ 2 +
          (-(sin b3 * 1 * cos b1 + cos b3 * sin b1)) ^ 2 = (1:ℝ) ^ 2 := by
        rw [show (-(sin b3 * 1 * sin b1) + cos b3 * cos b1) ^ 2 +
            (-(sin b3 * 1 * cos b1 + cos b3 * sin b1)) ^ 2 =
          (sin b3 ^ 2 + cos b3 ^ 2) * (sin b1 ^ 2 + cos b1 ^ 2) by ring,
          Real.sin_sq_add_cos_sq, Real.sin_sq_add_cos_sq, one_pow, one_mul]
      have hx2 : (1:ℝ) ^ 2 + (0:ℝ) ^ 2 = (1:ℝ) ^ 2 := by norm_num
      have hca := cos_neg_atan2 (-(sin b3 * 1 * cos b1 + cos b3 * sin b1))
        (-(sin b3 * 1 * sin b1) + cos b3 * cos b1) 1 one_pos hx1
      have hsa := sin_neg_atan2 (-(sin b3 * 1 * cos b1 + cos b3 * sin b1))
        (-(sin b3 * 1 * sin b1) + cos b3 * cos b1) 1 one_pos hx1
      have hcb := cos_neg_atan2 0 1 1 one_pos hx2
      have hsb := sin_neg_atan2 0 1 1 one_pos hx2
      rw [div_one] at hca hcb
      rw [show -(-(sin b3 * 1 * cos b1 + cos b3 * sin b1) / 1) =
        sin b3 * 1 * cos b1 + cos b3 * sin b1 by ring] at hsa
      rw [show -((0:ℝ) / 1) = 0 by norm_num] at hsb
      ext i j
      fin_cases i <;> fin_cases j <;>
        simp only [eulerMatrix, Matrix.cons_val', Matrix.cons_val_zero, Matrix.empty_val',
          Matrix.cons_val_fin_one, Matrix.cons_val_one, Matrix.head_cons,
          Matrix.head_fin_const, Matrix.of_apply, Matrix.cons_val_two, Matrix.tail_cons] <;>
        simp only [hca, hsa, hcb, hsb, hz, hc1, Real.cos_zero, Real.sin_zero] <;> ring_nf
    · have hc1 : cos b2 = -1 := by linarith
      rw [hc1]
      have hx1 : (-(sin b3 * -1 * sin b1) + cos b3 * cos b1) ^ 2 +
          (-(sin b3 * -1 * cos b1 + cos b3 * sin b1)) ^ 2 = (1:ℝ) ^ 2 := by
        rw [show (-(sin b3 * -1 * sin b1) + cos b3 * cos b1) ^ 2 +
            (-(sin b3 * -1 * cos b1 + cos b3 * sin b1)) ^ 2 =
          (sin b3 ^ 2 + cos b3 ^ 2) * (sin b1 ^ 2 + cos b1 ^ 2) by ring,
          Real.sin_sq_add_cos_sq, Real.sin_sq_add_cos_sq, one_pow, one_mul]
      have hx2 : (-1:ℝ) ^ 2 + (0:ℝ) ^ 2 = (1:ℝ) ^ 2 := by norm_num
      have hca := cos_neg_atan2 (-(sin b3 * -1 * cos b1 + cos b3 * sin b1))
        (-(sin b3 * -1 * sin b1) + cos b3 * cos b1) 1 one_pos hx1
      have hsa := sin_neg_atan2 (-(sin b3 * -1 * cos b1 + cos b3 * sin b1))
        (-(sin b3 * -1 * sin b1) + cos b3 * cos b1) 1 one_pos hx1
      have hcb := cos_neg_atan2 0 (-1) 1 one_pos hx2
      have hsb := sin_neg_atan2 0 (-1) 1 one_pos hx2
      rw [div_one] at hca hcb
      rw [show -(-(sin b3 * -1 * cos b1 + cos b3 * sin b1) / 1) =
        sin b3 * -1 * cos b1 + cos b3 * sin b1 by ring] at hsa
      rw [show -((0:ℝ) / 1) = 0 by norm_num] at hsb
      ext i j
      fin_cases i <;> fin_cases j <;>
        simp only [eulerMatrix, Matrix.cons_val', Matrix.cons_val_zero, Matrix.empty_val',
          Matrix.cons_val_fin_one, Matrix.cons_val_one, Matrix.head_cons,
          Matrix.head_fin_const, Matrix.of_apply, Matrix.cons_val_two, Matrix.tail_cons] <;>
        simp only [hca, hsa, hcb, hsb, hz, hc1, Real.cos_zero, Real.sin_zero] <;> ring_nf
  · rw [eulerFromMatrix_eulerMatrix_pos b1 b2 b3 hpos]
    have hne : sin b2 ≠ 0 := hpos.ne'
    have hx1 : (-(sin b2 * cos b1)) ^ 2 + (sin b2 * sin b1) ^ 2 = (sin b2) ^ 2 := by
      rw [show (-(sin b2 * cos b1)) ^ 2 + (sin b2 * sin b1) ^ 2 =
        sin b2 ^ 2 * (sin b1 ^ 2 + cos b1 ^ 2) by ring, Real.sin_sq_add_cos_sq, mul_one]
    have hx3 : (-(cos b3 * sin b2)) ^ 2 + (sin b3 * sin b2) ^ 2 = (sin b2) ^ 2 := by
      rw [show (-(cos b3 * sin b2)) ^ 2 + (sin b3 * sin b2) ^ 2 =
        sin b2 ^ 2 * (sin b3 ^ 2 + cos b3 ^ 2) by ring, Real.sin_sq_add_cos_sq, mul_one]
    have hx2 : (cos b2) ^ 2 + (sin b2) ^ 2 = (1:ℝ) ^ 2 := by
      rw [show (cos b2) ^ 2 + (sin b2) ^ 2 = sin b2 ^ 2 + cos b2 ^ 2 by ring,
        Real.sin_sq_add_cos_sq, one_pow]
    have hca := cos_neg_atan2 (sin b2 * sin b1) (-(sin b2 * cos b1)) (sin b2) hpos hx1
    have hsa := sin_neg_atan2 (sin b2 * sin b1) (-(sin b2 * cos b1)) (sin b2) hpos hx1
    have hcb := cos_neg_atan2 (sin b2) (cos b2) 1 one_pos hx2
    have hsb := sin_neg_atan2 (sin b2) (cos b2) 1 one_pos hx2
    have hcc := cos_neg_atan2 (sin b3 * sin b2) (-(cos b3 * sin b2)) (sin b2) hpos hx3
    have hsc := sin_neg_atan2 (sin b3 * sin b2) (-(cos b3 * sin b2)) (sin b2) hpos hx3
    rw [neg_div, mul_div_cancel_left₀ _ hne] at hca
    rw [mul_div_cancel_left₀ _ hne] at hsa
    rw [div_one] at hcb
    rw [div_one] at hsb
    rw [neg_div, mul_div_cancel_right₀ _ hne] at hcc
    rw [mul_div_cancel_right₀ _ hne] at hsc
    ext i j
    fin_cases i <;> fin_cases j <;>
      simp only [eulerMatrix, Matrix.cons_val', Matrix.cons_val_zero, Matrix.empty_val',
        Matrix.cons_val_fin_one, Matrix.cons_val_one, Matrix.head_cons,
        Matrix.head_fin_const, Matrix.of_apply, Matrix.cons_val_two, Matrix.tail_cons] <;>
      simp only [hca, hsa, hcb, hsb, hcc, hsc] <;> ring_nf

/-- Rotation about the third axis (z) by `θ`. -/
noncomputable def Rz (θ : ℝ) : Rot3 :=
  !![cos θ, -sin θ, 0; sin θ, cos θ, 0; 0, 0, 1]

/-- Rotation about the second axis (y) by `θ`. -/
noncomputable def Ry (θ : ℝ) : Rot3 :=
  !![cos θ, 0, sin θ; 0, 1, 0; -sin θ, 0, cos θ]

theorem eulerMatrix_eq_mul (ai aj ak : ℝ) :
    eulerMatrix ai aj ak = Rz ak * Ry aj * Rz ai := by
  ext i j
  fin_cases i <;> fin_cases j <;>
    simp [eulerMatrix, Rz, Ry, Matrix.mul_apply, Fin.sum_univ_three] <;> ring

theorem Rz_transpose (θ : ℝ) :
    (Rz θ)ᵀ = !![cos θ, sin θ, 0; -sin θ, cos θ, 0; 0, 0, 1] := by
  ext i j
  fin_cases i <;> fin_cases j <;> simp [Rz, Matrix.transpose_apply]

theorem Ry_transpose (θ : ℝ) :
    (Ry θ)ᵀ = !![cos θ, 0, -sin θ; 0, 1, 0; sin θ, 0, cos θ] := by
  ext i j
  fin_cases i <;> fin_cases j <;> simp [Ry, Matrix.transpose_apply]

theorem Rz_mul_transpose (θ : ℝ) : Rz θ * (Rz θ)ᵀ = 1 := by
  rw [Rz_transpose]
  ext i j
  fin_cases i <;> fin_cases j <;>
    simp [Rz, Matrix.mul_apply, Fin.sum_univ_three, Matrix.one_apply] <;>
    first
      | ring1
      | linear_combination Real.sin_sq_add_cos_sq θ

theorem Rz_transpose_mul (θ : ℝ) : (Rz θ)ᵀ * Rz θ = 1 := by
  rw [Rz_transpose]
  ext i j
  fin_cases i <;> fin_cases j <;>
    simp [Rz, Matrix.mul_apply, Fin.sum_univ_three, Matrix.one_apply] <;>
    first
      | ring1
      | linear_combination Real.sin_sq_add_cos_sq θ

theorem Ry_mul_transpose (θ : ℝ) : Ry θ * (Ry θ)ᵀ = 1 := by
  rw [Ry_transpose]
  ext i j
  fin_cases i <;> fin_cases j <;>
    simp [Ry, Matrix.mul_apply, Fin.sum_univ_three, Matrix.one_apply] <;>
    first
      | ring1
      | linear_combination Real.sin_sq_add_cos_sq θ

theorem Ry_transpose_mul (θ : ℝ) : (Ry θ)ᵀ * Ry θ = 1 := by
  rw [Ry_transpose]
  ext i j
  fin_cases i <;> fin_cases j <;>
    simp [Ry, Matrix.mul_apply, Fin.sum_univ_three, Matrix.one_apply] <;>
    first
      | ring1
      | linear_combination Real.sin_sq_add_cos_sq θ

theorem eulerMatrix_mul_transpose (ai aj ak : ℝ) :
    eulerMatrix ai aj ak * (eulerMatrix ai aj ak)ᵀ = 1 := by
  rw [eulerMatrix_eq_mul, Matrix.transpose_mul, Matrix.transpose_mul]
  calc Rz ak * Ry aj * Rz ai * ((Rz ai)ᵀ * ((Ry aj)ᵀ * (Rz ak)ᵀ))
      = Rz ak * (Ry aj * ((Rz ai * (Rz ai)ᵀ) * (Ry aj)ᵀ)) * (Rz ak)ᵀ := by
        simp only [Matrix.mul_assoc]
    _ = 1 := by
        rw [Rz_mul_transpose, one_mul, Ry_mul_transpose, mul_one, Rz_mul_transpose]

theorem eulerMatrix_transpose_mul (ai aj ak : ℝ) :
    (eulerMatrix ai aj ak)ᵀ * eulerMatrix ai aj ak = 1 := by
  rw [eulerMatrix_eq_mul, Matrix.transpose_mul, Matrix.transpose_mul]
  calc (Rz ai)ᵀ * ((Ry aj)ᵀ * (Rz ak)ᵀ) * (Rz ak * Ry aj * Rz ai)
      = (Rz ai)ᵀ * ((Ry aj)ᵀ * (((Rz ak)ᵀ * Rz ak) * Ry aj)) * Rz ai := by
        simp only [Matrix.mul_assoc]
    _ = 1 := by
        rw [Rz_transpose_mul, one_mul, Ry_transpose_mul, mul_one, Rz_transpose_mul]

theorem eulerMatrix_transpose (ai aj ak : ℝ) :
    (eulerMatrix ai aj ak)ᵀ = eulerMatrix (-ak) (-aj) (-ai) := by
  ext i j
  fin_cases i <;> fin_cases j <;>
    simp [eulerMatrix, Matrix.transpose_apply, Real.sin_neg, Real.cos_neg] <;> ring

/-- A rigid spatial transform as the code keeps it: the rotation block and the
translation column of a 4x4 homogeneous matrix whose last row is `(0,0,0,1)`. -/
@[ext]
structure HomMatrix where
  R : Rot3
  t : Fin 3 → ℝ

/-- Model of `numpy.linalg.inv` applied to the 4x4 homogeneous matrix `[[R, t], [0, 1]]`:
its unique matrix inverse is the homogeneous matrix `[[R⁻¹, -R⁻¹t], [0, 1]]`. -/
noncomputable def HomMatrix.inv (m : HomMatrix) : HomMatrix :=
  { R := m.R⁻¹, t := -(m.R⁻¹.mulVec m.t) }

/-- Source `transformations.translation_from_matrix`: the translation column. -/
def translation_from_matrix (m : HomMatrix) : Fin 3 → ℝ := m.t

/-- One particle row of the star file carrying a 2-D in-plane alignment. -/
structure Row2D where
  psi : ℝ
  ox : ℝ
  oy : ℝ

/-- One particle row of the star file carrying a projection alignment. -/
structure RowProj where
  rot : ℝ
  tilt : ℝ
  psi : ℝ
  ox : ℝ
  oy : ℝ
  oz : ℝ

/-- Source `Writer._align2DToRow`: shifts are the matrix translation scaled by the
pixel size; the three szyz angles are extracted, negated and converted to
degrees, and `rlnAnglePsi` is the negated sum of the first and third. -/
noncomputable def align2DToRow (pixelSize : ℝ) (m : HomMatrix) : Row2D :=
  let shifts : Fin 3 → ℝ := fun i => translation_from_matrix m i * pixelSize
  let e := eulerFromMatrix m.R
  let angles : ℝ × ℝ × ℝ := (-rad2deg e.1, -rad2deg e.2.1, -rad2deg e.2.2)
  { ox := shifts 0, oy := shifts 1, psi := -(angles.1 + angles.2.2) }

/-- Source `Writer._alignProjToRow`: the matrix is inverted first, the resulting
translation negated and scaled by pixel size, and the three szyz angles of the
inverted matrix, negated and in degrees, become rot/tilt/psi. -/
noncomputable def alignProjToRow (pixelSize : ℝ) (m : HomMatrix) : RowProj :=
  let mi := m.inv
  let shifts : Fin 3 → ℝ := fun i => -translation_from_matrix mi i * pixelSize
  let e := eulerFromMatrix mi.R
  let angles : ℝ × ℝ × ℝ := (-rad2deg e.1, -rad2deg e.2.1, -rad2deg e.2.2)
  { ox := shifts 0, oy := shifts 1, oz := shifts 2,
    rot := angles.1, tilt := angles.2.1, psi := angles.2.2 }

/-- Source `Reader.__setParticleTransform2D`: shifts are scaled by the inverse pixel
size and placed in the translation slot; the in-plane angle is negated into
the third angle slot, all three angles negated, converted to radians and fed
to the szyz Euler matrix. -/
noncomputable def setParticleTransform2D (pixelSize : ℝ) (row : Row2D) : HomMatrix :=
  let ips := 1 / pixelSize
  let shifts : Fin 3 → ℝ := ![row.ox * ips, row.oy * ips, 0]
  let angles : ℝ × ℝ × ℝ := (0, 0, -row.psi)
  { R := eulerMatrix (-deg2rad angles.1) (-deg2rad angles.2.1) (-deg2rad angles.2.2),
    t := shifts }

/-- Source `Reader.__setParticleTransformProj`: the stored angles are negated and
converted to radians, the scaled shifts are negated into the translation slot,
and the assembled homogeneous matrix is inverted. -/
noncomputable def setParticleTransformProj (pixelSize : ℝ) (row : RowProj) : HomMatrix :=
  let ips := 1 / pixelSize
  let shifts : Fin 3 → ℝ := ![row.ox * ips, row.oy * ips, row.oz * ips]
  let angles : ℝ × ℝ × ℝ := (row.rot, row.tilt, row.psi)
  HomMatrix.inv
    { R := eulerMatrix (-deg2rad angles.1) (-deg2rad angles.2.1) (-deg2rad angles.2.2),
      t := fun i => -shifts i }

/-- A 2-D (in-plane) rigid record transform: in-plane rotation by `ψ` radians
with a 2-D pixel shift `(x, y)`. -/
noncomputable def rigid2D (ψ x y : ℝ) : HomMatrix :=
  { R := eulerMatrix ψ 0 0, t := ![x, y, 0] }

/-- A projection-mode rigid record transform: a full szyz rotation with a 3-D
pixel shift. -/
noncomputable def rigidProj (a1 a2 a3 : ℝ) (v : Fin 3 → ℝ) : HomMatrix :=
  { R := eulerMatrix a1 a2 a3, t := v }

/-- Entrywise closeness of two homogeneous transforms. -/
def closeHom (m1 m2 : HomMatrix) (tol : ℝ) : Prop :=
  (∀ i j, |m1.R i j - m2.R i j| ≤ tol) ∧ ∀ i, |m1.t i - m2.t i| ≤ tol

theorem rad2deg_zero : rad2deg 0 = 0 := by
  simp [rad2deg]

theorem deg2rad_zero : deg2rad 0 = 0 := by
  simp [deg2rad]

theorem deg2rad_neg (x : ℝ) : deg2rad (-x) = -deg2rad x := by
  simp [deg2rad]

theorem atan2_zero_one : atan2 0 1 = 0 := by
  unfold atan2
  rw [show (⟨1, 0⟩ : ℂ) = 1 from Complex.ext rfl rfl, Complex.arg_one]

theorem eulerFromMatrix_inplane (ψ : ℝ) :
    eulerFromMatrix (eulerMatrix ψ 0 0) = (-atan2 (-sin ψ) (cos ψ), 0, 0) := by
  rw [eulerFromMatrix_eulerMatrix_zero ψ 0 0 Real.sin_zero]
  simp only [Real.sin_zero, Real.cos_zero, zero_mul, one_mul, mul_one, mul_zero,
    zero_add, neg_zero, add_zero, atan2_zero_one]

theorem cos_inplane (ψ : ℝ) : Real.cos (-atan2 (-sin ψ) (cos ψ)) = cos ψ := by
  have h := cos_neg_atan2 (-sin ψ) (cos ψ) 1 one_pos
    (by linear_combination Real.sin_sq_add_cos_sq ψ)
  rwa [div_one] at h

theorem sin_inplane (ψ : ℝ) : Real.sin (-atan2 (-sin ψ) (cos ψ)) = sin ψ := by
  have h := sin_neg_atan2 (-sin ψ) (cos ψ) 1 one_pos
    (by linear_combination Real.sin_sq_add_cos_sq ψ)
  rwa [show -(-sin ψ / 1) = sin ψ by ring] at h

theorem align2DToRow_inplane (ps ψ x y : ℝ) :
    align2DToRow ps (rigid2D ψ x y) =
      { psi := rad2deg (-atan2 (-sin ψ) (cos ψ)), ox := x * ps, oy := y * ps } := by
  simp only [align2DToRow, rigid2D, translation_from_matrix, eulerFromMatrix_inplane,
    rad2deg_zero, neg_zero, add_zero, neg_neg, Matrix.cons_val_zero,
    Matrix.cons_val_one, Matrix.head_cons]

/-- The 2-D write-then-read round trip is exact over the reals. -/
theorem roundTrip2D_eq (ps ψ x y : ℝ) (hps : ps ≠ 0) :
    setParticleTransform2D ps (align2DToRow ps (rigid2D ψ x y)) = rigid2D ψ x y := by
  rw [align2DToRow_inplane]
  simp only [setParticleTransform2D]
  rw [show -deg2rad (-(rad2deg (-atan2 (-sin ψ) (cos ψ)))) =
    -atan2 (-sin ψ) (cos ψ) by rw [deg2rad_neg, neg_neg, deg2rad_rad2deg]]
  apply HomMatrix.ext
  · show eulerMatrix (-deg2rad 0) (-deg2rad 0) (-atan2 (-sin ψ) (cos ψ)) =
      (rigid2D ψ x y).R
    rw [deg2rad_zero, neg_zero]
    show eulerMatrix 0 0 (-atan2 (-sin ψ) (cos ψ)) = eulerMatrix ψ 0 0
    ext i j
    fin_cases i <;> fin_cases j <;>
      simp only [eulerMatrix, Matrix.cons_val', Matrix.cons_val_zero, Matrix.empty_val',
        Matrix.cons_val_fin_one, Matrix.cons_val_one, Matrix.head_cons,
        Matrix.head_fin_const, Matrix.of_apply, Matrix.cons_val_two, Matrix.tail_cons] <;>
      simp only [cos_inplane, sin_inplane, Real.sin_zero, Real.cos_zero] <;> ring_nf
  · show (![x * ps * (1 / ps), y * ps * (1 / ps), 0] : Fin 3 → ℝ) = (rigid2D ψ x y).t
    show (![x * ps * (1 / ps), y * ps * (1 / ps), 0] : Fin 3 → ℝ) = ![x, y, 0]
    have hx : x * ps * (1 / ps) = x := by
      field_simp
    have hy : y * ps * (1 / ps) = y := by
      field_simp
    rw [hx, hy]

/-- The projection write-then-read round trip is exact over the reals. -/
theorem roundTripProj_eq (ps a1 a2 a3 : ℝ) (v : Fin 3 → ℝ) (hps : ps ≠ 0) :
    setParticleTransformProj ps (alignProjToRow ps (rigidProj a1 a2 a3 v)) =
      rigidProj a1 a2 a3 v := by
  have h1 := eulerMatrix_mul_transpose a1 a2 a3
  have h2 := eulerMatrix_transpose_mul a1 a2 a3
  have hinv : (eulerMatrix a1 a2 a3)⁻¹ = (eulerMatrix a1 a2 a3)ᵀ :=
    Matrix.inv_eq_right_inv h1
  have htinv : ((eulerMatrix a1 a2 a3)ᵀ)⁻¹ = eulerMatrix a1 a2 a3 :=
    Matrix.inv_eq_right_inv h2
  have hrec : eulerMatrix (eulerFromMatrix ((eulerMatrix a1 a2 a3)ᵀ)).1
      (eulerFromMatrix ((eulerMatrix a1 a2 a3)ᵀ)).2.1
      (eulerFromMatrix ((eulerMatrix a1 a2 a3)ᵀ)).2.2 = (eulerMatrix a1 a2 a3)ᵀ := by
    rw [eulerMatrix_transpose a1 a2 a3]
    exact eulerMatrix_eulerFromMatrix (-a3) (-a2) (-a1)
  have hcancel : ∀ z : ℝ, -deg2rad (-rad2deg z) = z := fun z => by
    rw [deg2rad_neg, neg_neg, deg2rad_rad2deg]
  simp only [setParticleTransformProj, alignProjToRow, rigidProj, HomMatrix.inv,
    translation_from_matrix, hinv, htinv, hcancel]
  rw [hrec, htinv]
  apply HomMatrix.ext
  · rfl
  · dsimp only
    have hvec : (fun i => -![-(-((eulerMatrix a1 a2 a3)ᵀ *ᵥ v)) 0 * ps * (1 / ps),
        -(-((eulerMatrix a1 a2 a3)ᵀ *ᵥ v)) 1 * ps * (1 / ps),
        -(-((eulerMatrix a1 a2 a3)ᵀ *ᵥ v)) 2 * ps * (1 / ps)] i) =
        -((eulerMatrix a1 a2 a3)ᵀ *ᵥ v) := by
      funext i
      fin_cases i <;>
        simp only [Matrix.cons_val_zero, Matrix.cons_val_one, Matrix.head_cons,
          Matrix.cons_val_two, Matrix.tail_cons, Pi.neg_apply, neg_neg] <;>
        field_simp
      rfl
    rw [hvec, Matrix.mulVec_neg, neg_neg, Matrix.mulVec_mulVec, h1, Matrix.one_mulVec]

theorem rad2deg_deg2rad (x : ℝ) : rad2deg (deg2rad x) = x := by
  unfold deg2rad rad2deg
  field_simp

theorem neg_atan2_neg_sin_cos (θ : ℝ) (h : -θ ∈ Set.Ioc (-π) π) :
    -atan2 (-sin θ) (cos θ) = θ := by
  unfold atan2
  rw [show (⟨cos θ, -sin θ⟩ : ℂ) =
      (↑(Real.cos (-θ)) + ↑(Real.sin (-θ)) * Complex.I) by
    rw [Real.cos_neg, Real.sin_neg]
    apply Complex.mk_eq_add_mul_I]
  rw [Complex.ofReal_cos, Complex.ofReal_sin, Complex.arg_cos_add_sin_mul_I h, neg_neg]

theorem closeHom_of_eq (m1 m2 : HomMatrix) (h : m1 = m2) :
    closeHom m1 m2 (1 / 100000) := by
  subst h
  constructor
  · intro i j
    rw [sub_self, abs_zero]
    norm_num
  · intro i
    rw [sub_self, abs_zero]
    norm_num

/-- C1: for every synthetic record carrying a rigid transform, writing it to a
star-file row and reading it back yields a transform whose matrix entries and
translation equal the originals within the floating tolerance 1e-5, both in
the 2-D in-plane mode (`rigid2D`) and in the projection mode (`rigidProj`).
The identity transform is the instance `ψ = 0`, `x = y = 0`, and the
180-degree edge rotations are the instances `ψ = π` resp. `a2 = π`; all are
covered by the universal quantifiers. Proved from exact equality over `ℝ`. -/
theorem claim1_roundtrip (ps ψ x y a1 a2 a3 : ℝ) (v : Fin 3 → ℝ) (hps : ps ≠ 0) :
    closeHom (setParticleTransform2D ps (align2DToRow ps (rigid2D ψ x y)))
      (rigid2D ψ x y) (1 / 100000) ∧
    closeHom (setParticleTransformProj ps (alignProjToRow ps (rigidProj a1 a2 a3 v)))
      (rigidProj a1 a2 a3 v) (1 / 100000) :=
  ⟨closeHom_of_eq _ _ (roundTrip2D_eq ps ψ x y hps),
   closeHom_of_eq _ _ (roundTripProj_eq ps a1 a2 a3 v hps)⟩

/-- Witness for C1 at pixel size 1 and the identity transform. -/
theorem claim1_roundtrip_witness :
    (1:ℝ) ≠ 0 ∧
    (closeHom (setParticleTransform2D 1 (align2DToRow 1 (rigid2D 0 0 0)))
      (rigid2D 0 0 0) (1 / 100000) ∧
    closeHom (setParticleTransformProj 1 (alignProjToRow 1 (rigidProj 0 0 0 ![0, 0, 0])))
      (rigidProj 0 0 0 ![0, 0, 0]) (1 / 100000)) :=
  ⟨one_ne_zero, claim1_roundtrip 1 0 0 0 0 0 0 ![0, 0, 0] one_ne_zero⟩

/-- C2 counterexample: for the in-plane rotation by 90 degrees the writer
emits `rlnAnglePsi = +90`, not the negation of the sum of the first and third
szyz Euler angles of the rotation (which is `-90`); the code stores the sum
itself, not its negation. -/
theorem claim2_counterexample :
    (align2DToRow 1 (rigid2D (deg2rad 90) 0 0)).psi ≠
      -(rad2deg (eulerFromMatrix (rigid2D (deg2rad 90) 0 0).R).1 +
        rad2deg (eulerFromMatrix (rigid2D (deg2rad 90) 0 0).R).2.2) := by
  have hmem : -deg2rad 90 ∈ Set.Ioc (-π) π := by
    unfold deg2rad
    constructor
    · have := Real.pi_pos
      rw [show (90:ℝ) * (π / 180) = π / 2 by ring]
      linarith
    · have := Real.pi_pos
      rw [show (90:ℝ) * (π / 180) = π / 2 by ring]
      linarith
  have he1 : -atan2 (-sin (deg2rad 90)) (cos (deg2rad 90)) = deg2rad 90 :=
    neg_atan2_neg_sin_cos (deg2rad 90) hmem
  have hrowR : (rigid2D (deg2rad 90) 0 0).R = eulerMatrix (deg2rad 90) 0 0 := rfl
  rw [align2DToRow_inplane, hrowR, eulerFromMatrix_inplane]
  simp only [he1]
  rw [rad2deg_deg2rad, rad2deg_zero, add_zero]
  norm_num

/-- C2 amended: the writer stores as `rlnAnglePsi` the sum, in degrees, of
the first and third szyz Euler angles of the rotation (equivalently, the
negation of the sum of the negated angle values the code computes), and the
translation multiplied by the record pixel size; for a record whose matrix is
the in-plane rotation by 30 degrees with pixel shift `(2, 3)` at pixel size
1.0, the emitted row has `rlnAnglePsi = 30.0`, `rlnOriginXAngst = 2.0` and
`rlnOriginYAngst = 3.0`. -/
theorem claim2_amended :
    (∀ (ps : ℝ) (m : HomMatrix),
        (align2DToRow ps m).psi =
          rad2deg ((eulerFromMatrix m.R).1 + (eulerFromMatrix m.R).2.2) ∧
        (align2DToRow ps m).ox = translation_from_matrix m 0 * ps ∧
        (align2DToRow ps m).oy = translation_from_matrix m 1 * ps) ∧
    (align2DToRow 1 (rigid2D (deg2rad 30) 2 3)).psi = 30 ∧
    (align2DToRow 1 (rigid2D (deg2rad 30) 2 3)).ox = 2 ∧
    (align2DToRow 1 (rigid2D (deg2rad 30) 2 3)).oy = 3 := by
  constructor
  · intro ps m
    refine ⟨?_, rfl, rfl⟩
    show -(-rad2deg (eulerFromMatrix m.R).1 + -rad2deg (eulerFromMatrix m.R).2.2) = _
    unfold rad2deg
    ring
  · have hmem : -deg2rad 30 ∈ Set.Ioc (-π) π := by
      unfold deg2rad
      constructor
      · have := Real.pi_pos
        rw [show (30:ℝ) * (π / 180) = π / 6 by ring]
        linarith
      · have := Real.pi_pos
        rw [show (30:ℝ) * (π / 180) = π / 6 by ring]
        linarith
    have he1 : -atan2 (-sin (deg2rad 30)) (cos (deg2rad 30)) = deg2rad 30 :=
      neg_atan2_neg_sin_cos (deg2rad 30) hmem
    rw [align2DToRow_inplane]
    refine ⟨?_, by norm_num, by norm_num⟩
    show rad2deg (-atan2 (-sin (deg2rad 30)) (cos (deg2rad 30))) = 30
    rw [he1, rad2deg_deg2rad]

/-- C3: in projection mode the writer inverts the matrix first, negates the
resulting translation and scales it by the pixel size, and stores the three
szyz Euler angles of the inverted matrix negated (in degrees); the reader
negates the three stored angles (converting degrees to radians), places the
negated, inverse-pixel-size-scaled stored translation in the matrix
translation slot, and inverts the assembled homogeneous matrix. -/
theorem claim3_proj_conventions (ps : ℝ) (m : HomMatrix) (r : RowProj) :
    alignProjToRow ps m =
      { rot := -rad2deg (eulerFromMatrix m.inv.R).1,
        tilt := -rad2deg (eulerFromMatrix m.inv.R).2.1,
        psi := -rad2deg (eulerFromMatrix m.inv.R).2.2,
        ox := -translation_from_matrix m.inv 0 * ps,
        oy := -translation_from_matrix m.inv 1 * ps,
        oz := -translation_from_matrix m.inv 2 * ps } ∧
    setParticleTransformProj ps r =
      HomMatrix.inv
        { R := eulerMatrix (-deg2rad r.rot) (-deg2rad r.tilt) (-deg2rad r.psi),
          t := ![-(r.ox * (1 / ps)), -(r.oy * (1 / ps)), -(r.oz * (1 / ps))] } := by
  constructor
  · rfl
  · have ht : (fun i => -(![r.ox * (1 / ps), r.oy * (1 / ps), r.oz * (1 / ps)] i)) =
        ![-(r.ox * (1 / ps)), -(r.oy * (1 / ps)), -(r.oz * (1 / ps))] := by
      funext i
      fin_cases i <;> rfl
    simp only [setParticleTransformProj, ht]

/-- Acquisition metadata carried by a record, as `_getOpticsGroupNumber`
reads it from `img.getAcquisition()`; numeric values are rationals, the exact
idealisation of the Python floats. -/
structure Acquisition where
  opticsGroupName : Option String
  voltage : ℚ
  sphericalAberration : ℚ
  amplitudeContrast : ℚ
  beamTiltX : Option ℚ
  beamTiltY : Option ℚ
  mtfFile : Option String
deriving DecidableEq

/-- A record (movie, micrograph or particle) as the optics resolver sees it. -/
structure ImgRecord where
  acquisition : Acquisition
  samplingRate : ℚ
deriving DecidableEq

/-- One optics-group entry, the dictionary snapshot taken on first sight. -/
structure OpticsGroup where
  rlnOpticsGroupName : String
  rlnOpticsGroup : Nat
  rlnMicrographOriginalPixelSize : ℚ
  labelPixelSize : ℚ
  rlnVoltage : ℚ
  rlnSphericalAberration : ℚ
  rlnAmplitudeContrast : ℚ
  rlnBeamTiltX : ℚ
  rlnBeamTiltY : ℚ
  rlnImageDimensionality : Nat
  rlnImageSize : Nat
  rlnMtfFileName : Option String
deriving DecidableEq

/-- The dictionary key the writer uses: the acquisition's group name, with the
falsy values (`None`, the empty string) replaced by `'DefaultOpticsGroup'`. -/
def effectiveGroupName (a : Acquisition) : String :=
  match a.opticsGroupName with
  | none => "DefaultOpticsGroup"
  | some s => if s = "" then "DefaultOpticsGroup" else s

/-- Ordered-dictionary lookup by group name. -/
def olookup (k : String) : List (String × OpticsGroup) → Option OpticsGroup
  | [] => none
  | (k2, g) :: rest => if k2 = k then some g else olookup k rest

/-- The snapshot `_getOpticsGroupNumber` stores for a novel group name. -/
def newOpticsGroup (dim imgSize : Nat) (ogName : String) (ogNumber : Nat)
    (img : ImgRecord) : OpticsGroup :=
  { rlnOpticsGroupName := ogName
    rlnOpticsGroup := ogNumber
    rlnMicrographOriginalPixelSize := img.samplingRate
    labelPixelSize := img.samplingRate
    rlnVoltage := img.acquisition.voltage
    rlnSphericalAberration := img.acquisition.sphericalAberration
    rlnAmplitudeContrast := img.acquisition.amplitudeContrast
    rlnBeamTiltX := img.acquisition.beamTiltX.getD 0
    rlnBeamTiltY := img.acquisition.beamTiltY.getD 0
    rlnImageDimensionality := dim
    rlnImageSize := imgSize
    rlnMtfFileName := img.acquisition.mtfFile }

/-- Source `Writer._getOpticsGroupNumber`: the ordered map is keyed by group name
only; a miss appends a new entry numbered `len + 1`, a hit returns the stored
number and leaves the map untouched. -/
def getOpticsGroupNumber (dim imgSize : Nat) (optics : List (String × OpticsGroup))
    (img : ImgRecord) : Nat × List (String × OpticsGroup) :=
  let ogName := effectiveGroupName img.acquisition
  match olookup ogName optics with
  | some g => (g.rlnOpticsGroup, optics)
  | none =>
    let ogNumber := optics.length + 1
    (ogNumber, optics ++ [(ogName, newOpticsGroup dim imgSize ogName ogNumber img)])

/-- Resolving a sequence of records during one write pass, threading the
optics map; returns the per-record group ids and the final map. -/
def resolveAll (dim imgSize : Nat) :
    List ImgRecord → List (String × OpticsGroup) →
    List Nat × List (String × OpticsGroup)
  | [], st => ([], st)
  | r :: rs, st =>
    let p := getOpticsGroupNumber dim imgSize st r
    let q := resolveAll dim imgSize rs p.2
    (p.1 :: q.1, q.2)

/-- The acquisition fingerprint named by the spec: voltage, spherical
aberration, amplitude contrast, pixel size, optional group name. -/
def fingerprint (r : ImgRecord) : ℚ × ℚ × ℚ × ℚ × Option String :=
  (r.acquisition.voltage, r.acquisition.sphericalAberration,
    r.acquisition.amplitudeContrast, r.samplingRate, r.acquisition.opticsGroupName)

theorem fingerprint_eq_name (r r0 : ImgRecord) (h : fingerprint r = fingerprint r0) :
    effectiveGroupName r.acquisition = effectiveGroupName r0.acquisition := by
  have hname : r.acquisition.opticsGroupName = r0.acquisition.opticsGroupName := by
    have := congrArg (fun p : ℚ × ℚ × ℚ × ℚ × Option String => p.2.2.2.2) h
    exact this
  unfold effectiveGroupName
  rw [hname]

theorem getOpticsGroupNumber_hit (dim imgSize : Nat)
    (st : List (String × OpticsGroup)) (r : ImgRecord) (g : OpticsGroup)
    (h : olookup (effectiveGroupName r.acquisition) st = some g) :
    getOpticsGroupNumber dim imgSize st r = (g.rlnOpticsGroup, st) := by
  simp only [getOpticsGroupNumber, h]

theorem resolveAll_hits (dim imgSize : Nat) (name0 : String) (g : OpticsGroup)
    (st : List (String × OpticsGroup)) (hst : olookup name0 st = some g) :
    ∀ rs : List ImgRecord, (∀ r ∈ rs, effectiveGroupName r.acquisition = name0) →
      resolveAll dim imgSize rs st = (List.replicate rs.length g.rlnOpticsGroup, st) := by
  intro rs
  induction rs with
  | nil => intro _; rfl
  | cons r rest ih =>
    intro hall
    have hr : effectiveGroupName r.acquisition = name0 := hall r (by simp)
    have hhit : getOpticsGroupNumber dim imgSize st r = (g.rlnOpticsGroup, st) := by
      apply getOpticsGroupNumber_hit
      rw [hr]
      exact hst
    show (let p := getOpticsGroupNumber dim imgSize st r
          let q := resolveAll dim imgSize rest p.2
          (p.1 :: q.1, q.2)) = _
    rw [hhit]
    have hrest := ih (fun x hx => hall x (by simp [hx]))
    simp only [hrest, List.length_cons, List.replicate_succ]

/-- A concrete acquisition used in counterexamples and witnesses. -/
def demoAcq : Acquisition :=
  { opticsGroupName := none, voltage := 300, sphericalAberration := 3,
    amplitudeContrast := 1, beamTiltX := none, beamTiltY := none, mtfFile := none }

/-- Record with the demo acquisition. -/
def recA : ImgRecord := { acquisition := demoAcq, samplingRate := 1 }

/-- Same group name (none) as `recA` but a different voltage: the fingerprint
differs while the dictionary key does not. -/
def recB : ImgRecord :=
  { acquisition := { demoAcq with voltage := 200 }, samplingRate := 1 }

/-- A record with an explicit, different group name. -/
def recC : ImgRecord :=
  { acquisition := { demoAcq with opticsGroupName := some "GroupTwo" },
    samplingRate := 1 }

/-- C4 counterexample: two records whose acquisition fingerprints differ (the
voltages are 300 and 200) but which share the (defaulted) group name produce a
single optics entry and both rows reference id 1 — not a second entry with
id 2 as the claim states. -/
theorem claim4_counterexample :
    fingerprint recB ≠ fingerprint recA ∧
    (resolveAll 2 100 [recA, recB] []).2.length = 1 ∧
    (resolveAll 2 100 [recA, recB] []).2.length ≠ 2 ∧
    (resolveAll 2 100 [recA, recB] []).1 = [1, 1] := by
  decide

/-- C4 amended: resolving `N` records that share one acquisition fingerprint
produces exactly one optics-group entry, with all `N` rows referencing group
id 1; a record whose effective group NAME differs (rather than any fingerprint
field) produces a second entry with id 2, ids being assigned in first-seen
order starting at 1.  (The map is keyed by group name only, so a record whose
fingerprint differs in another field while sharing the name reuses entry 1.) -/
theorem claim4_amended :
    (∀ (dim imgSize : Nat) (r0 : ImgRecord) (rs : List ImgRecord),
      (∀ r ∈ rs, fingerprint r = fingerprint r0) →
      (resolveAll dim imgSize (r0 :: rs) []).2.length = 1 ∧
      (resolveAll dim imgSize (r0 :: rs) []).1 = List.replicate (rs.length + 1) 1) ∧
    (∀ (dim imgSize : Nat) (r1 r2 : ImgRecord),
      effectiveGroupName r1.acquisition ≠ effectiveGroupName r2.acquisition →
      (resolveAll dim imgSize [r1, r2] []).1 = [1, 2] ∧
      ((resolveAll dim imgSize [r1, r2] []).2.map
        (fun p => p.2.rlnOpticsGroup)) = [1, 2]) := by
  constructor
  · intro dim imgSize r0 rs hall
    set name0 := effectiveGroupName r0.acquisition with hname0
    have hfirst : getOpticsGroupNumber dim imgSize [] r0 =
        (1, [(name0, newOpticsGroup dim imgSize name0 1 r0)]) := by
      simp [getOpticsGroupNumber, olookup]
    set g0 := newOpticsGroup dim imgSize name0 1 r0 with hg0
    have hst : olookup name0 [(name0, g0)] = some g0 := by
      simp [olookup]
    have hnum : g0.rlnOpticsGroup = 1 := rfl
    have hrest := resolveAll_hits dim imgSize name0 g0 [(name0, g0)] hst rs
      (fun r hr => fingerprint_eq_name r r0 (hall r hr))
    have hres : resolveAll dim imgSize (r0 :: rs) [] =
        (1 :: List.replicate rs.length 1, [(name0, g0)]) := by
      simp only [resolveAll, hfirst, hrest, hnum]
    rw [hres]
    exact ⟨rfl, (List.replicate_succ 1 rs.length).symm⟩
  · intro dim imgSize r1 r2 hne
    have h1 : getOpticsGroupNumber dim imgSize [] r1 =
        (1, [(effectiveGroupName r1.acquisition,
          newOpticsGroup dim imgSize (effectiveGroupName r1.acquisition) 1 r1)]) := by
      simp [getOpticsGroupNumber, olookup]
    have h2 : getOpticsGroupNumber dim imgSize
        [(effectiveGroupName r1.acquisition,
          newOpticsGroup dim imgSize (effectiveGroupName r1.acquisition) 1 r1)] r2 =
        (2, [(effectiveGroupName r1.acquisition,
          newOpticsGroup dim imgSize (effectiveGroupName r1.acquisition) 1 r1),
          (effectiveGroupName r2.acquisition,
          newOpticsGroup dim imgSize (effectiveGroupName r2.acquisition) 2 r2)]) := by
      simp [getOpticsGroupNumber, olookup, hne]
    have hres : resolveAll dim imgSize [r1, r2] [] =
        ([1, 2], [(effectiveGroupName r1.acquisition,
          newOpticsGroup dim imgSize (effectiveGroupName r1.acquisition) 1 r1),
          (effectiveGroupName r2.acquisition,
          newOpticsGroup dim imgSize (effectiveGroupName r2.acquisition) 2 r2)]) := by
      simp only [resolveAll, h1, h2]
    rw [hres]
    exact ⟨rfl, rfl⟩

/-- Witness for C4 amended: two same-fingerprint records give one entry and
ids `[1, 1]`; a record with a different group name gives ids `[1, 2]`. -/
theorem claim4_amended_witness :
    ((resolveAll 2 100 [recA, recA] []).2.length = 1 ∧
      (resolveAll 2 100 [recA, recA] []).1 = List.replicate 2 1) ∧
    ((resolveAll 2 100 [recA, recC] []).1 = [1, 2] ∧
      ((resolveAll 2 100 [recA, recC] []).2.map
        (fun p => p.2.rlnOpticsGroup)) = [1, 2]) :=
  ⟨claim4_amended.1 2 100 recA [recA] (by decide),
   claim4_amended.2 2 100 recA recC (by decide)⟩

/-- C5: a resolve hit on an existing optics-group name returns the stored id
and leaves the map — including the stored pixel size — unchanged: first-seen
values win, groups are immutable after creation. -/
theorem claim5_hit_immutable (dim imgSize : Nat)
    (st : List (String × OpticsGroup)) (r : ImgRecord) (g : OpticsGroup)
    (h : olookup (effectiveGroupName r.acquisition) st = some g) :
    getOpticsGroupNumber dim imgSize st r = (g.rlnOpticsGroup, st) ∧
    olookup (effectiveGroupName r.acquisition)
      (getOpticsGroupNumber dim imgSize st r).2 = some g :=
  ⟨getOpticsGroupNumber_hit dim imgSize st r g h, by
    rw [getOpticsGroupNumber_hit dim imgSize st r g h]
    exact h⟩

/-- The optics map holding one demo entry with pixel size 1. -/
def demoOptics : List (String × OpticsGroup) :=
  [("DefaultOpticsGroup", newOpticsGroup 2 100 "DefaultOpticsGroup" 1 recA)]

/-- A record with the same group name but pixel size 2. -/
def recPs2 : ImgRecord := { acquisition := demoAcq, samplingRate := 2 }

/-- Witness for C5: a later record with the same group name but pixel size 2
gets the stored id 1 back and the stored pixel size stays 1. -/
theorem claim5_hit_immutable_witness :
    (olookup (effectiveGroupName recPs2.acquisition) demoOptics =
      some (newOpticsGroup 2 100 "DefaultOpticsGroup" 1 recA)) ∧
    (getOpticsGroupNumber 2 100 demoOptics recPs2 =
      ((newOpticsGroup 2 100 "DefaultOpticsGroup" 1 recA).rlnOpticsGroup, demoOptics) ∧
    olookup (effectiveGroupName recPs2.acquisition)
      (getOpticsGroupNumber 2 100 demoOptics recPs2).2 =
      some (newOpticsGroup 2 100 "DefaultOpticsGroup" 1 recA)) :=
  ⟨by decide,
   claim5_hit_immutable 2 100 demoOptics recPs2
     (newOpticsGroup 2 100 "DefaultOpticsGroup" 1 recA) (by decide)⟩

/-- One named block of an emitted star file, in emission order. -/
inductive StarBlock
  | optics (groups : List (String × OpticsGroup))
  | images (tableName : String) (rows : List (ImgRecord × Nat))
deriving DecidableEq

/-- The name under which a block is written (`data_<name>`). -/
def StarBlock.blockName : StarBlock → String
  | optics _ => "optics"
  | images tableName _ => tableName

/-- Source `Writer._writeSetOfMoviesOrMics`: the whole record set is converted to
rows, then the file is written with the optics table FIRST and the
movie/micrograph table after it. -/
def writeSetOfMoviesOrMics (dim imgSize : Nat) (tableName : String)
    (records : List ImgRecord) : List StarBlock :=
  let res := resolveAll dim imgSize records []
  [.optics res.2, .images tableName (records.zip res.1)]

/-- Source `Writer.writeSetOfParticles`: the particles block is streamed first and
the buffered optics table is appended at the end of the file. -/
def writeSetOfParticles (dim imgSize : Nat)
    (records : List ImgRecord) : List StarBlock :=
  let res := resolveAll dim imgSize records []
  [.images "particles" (records.zip res.1), .optics res.2]

/-- C6 counterexample: for a one-movie set the writer emits the optics block
BEFORE the movies block, so the claim that the optics table comes after the
main data block for movie/micrograph sets is false. -/
theorem claim6_counterexample :
    (writeSetOfMoviesOrMics 2 100 "movies" [recA]).map StarBlock.blockName ≠
      ["movies", "optics"] ∧
    (writeSetOfMoviesOrMics 2 100 "movies" [recA]).map StarBlock.blockName =
      ["optics", "movies"] := by
  decide

/-- C6 amended: for particle sets the optics table is appended after the main
data block, but for movie and micrograph sets the optics table is written
before the main table. -/
theorem claim6_amended (dim imgSize : Nat) (records : List ImgRecord)
    (tableName : String) :
    (writeSetOfParticles dim imgSize records).map StarBlock.blockName =
      ["particles", "optics"] ∧
    (writeSetOfMoviesOrMics dim imgSize tableName records).map StarBlock.blockName =
      ["optics", tableName] := by
  constructor <;> rfl

/-- The single-quote character, used by the Python string form of a list. -/
def pyQuote : Char := Char.ofNat 39

/-- Python `str` of a list of strings: brackets around comma-separated,
single-quoted elements. -/
def pyStrListRepr (l : List String) : String :=
  "[" ++ String.intercalate ", "
    (l.map (fun s => pyQuote.toString ++ s ++ pyQuote.toString)) ++ "]"

/-- Attribute lookup on a domain object modelled as a finite map from
attribute name to value (`hasattr` / `getAttributeValue`). -/
def getAttr : List (String × ℚ) → String → Option ℚ
  | [], _ => none
  | (k, v) :: rest, name => if k = name then some v else getAttr rest name

/-- Source `Writer._setAttributes`, exactly as the source has it: for each requested
label the probed attribute name is an underscore followed by the string form
of the WHOLE label list (the source formats `attributes`, the list, instead of
`attr`, the loop variable), and the value copied is read from that same
malformed name. -/
def setAttributes (obj : List (String × ℚ)) (row : List (String × ℚ))
    (attributes : List String) : List (String × ℚ) :=
  attributes.foldl (fun r attr =>
    let attrLabel := "_" ++ pyStrListRepr attributes
    match getAttr obj attrLabel with
    | some v => r ++ [(attr, v)]
    | none => r) row

/-- The behaviour the spec describes (and the surrounding code intends): probe
the underscore-prefixed single label and copy its value verbatim. -/
def setAttributesIntended (obj : List (String × ℚ)) (row : List (String × ℚ))
    (attributes : List String) : List (String × ℚ) :=
  attributes.foldl (fun r attr =>
    let attrLabel := "_" ++ attr
    match getAttr obj attrLabel with
    | some v => r ++ [(attr, v)]
    | none => r) row

/-- C7: the code is wrong.  A record carrying `_rlnParticleSelectZScore = 2`
never gets the label copied, because the probed attribute name is the string
form of the whole label list; the intended per-label probe would copy it. -/
theorem claim7_attr_bug :
    setAttributes [("_rlnParticleSelectZScore", 2)] []
      ["rlnParticleSelectZScore"] = [] ∧
    setAttributesIntended [("_rlnParticleSelectZScore", 2)] []
      ["rlnParticleSelectZScore"] = [("rlnParticleSelectZScore", 2)] := by
  constructor
  · rfl
  · rfl

/-- Modelled from the spec: the sentinel "no index" of the domain model
(`pwem.NO_INDEX`); indices are 1-based, so the sentinel is 0. -/
def noIndex : Nat := 0

/-- Decimal digits of `n`, most significant first, as characters. -/
def natChars (n : Nat) : List Char := ((Nat.digits 10 n).reverse).map Nat.digitChar

/-- Zero-pad a digit string on the left to width 6 (`"%06d"`). -/
def pad6 (s : List Char) : List Char := List.replicate (6 - s.length) '0' ++ s

/-- Source `convert_utils.locationToRelion`: `"%06d@%s" % (index, filename)` when the
index is not the sentinel, the bare filename otherwise. -/
def locationToRelion (index : Nat) (filename : List Char) : List Char :=
  if index ≠ noIndex then pad6 (natChars index) ++ '@' :: filename else filename

/-- Value of a digit string (the numeral semantics of Python `int`). -/
def parseVal (s : List Char) : Nat :=
  s.foldl (fun acc c => acc * 10 + (c.toNat - 48)) 0

/-- Python `int` on a string: defined on nonempty all-digit strings. -/
def parseNatChars (s : List Char) : Option Nat :=
  if s ≠ [] ∧ s.all Char.isDigit then some (parseVal s) else none

/-- Python `str.split` on a separator character (splits at every occurrence). -/
def splitAll (c : Char) : List Char → List (List Char)
  | [] => [[]]
  | x :: xs =>
    match splitAll c xs with
    | [] => [[x]]
    | h :: t => if x = c then [] :: h :: t else (x :: h) :: t

/-- Source `convert_utils.relionToLocation`: a string with an `'@'` is split and the
left part parsed as the index (the Python two-name unpacking fails unless the
split has exactly two parts, and `int` fails on non-digits: both are `none`);
a bare path yields the sentinel index. -/
def relionToLocation (s : List Char) : Option (Nat × List Char) :=
  if '@' ∈ s then
    match splitAll '@' s with
    | [a, b] =>
      match parseNatChars a with
      | some n => some (n, b)
      | none => none
    | _ => none
  else some (noIndex, s)

theorem digitChar_isDigit (d : Nat) (h : d < 10) :
    (Nat.digitChar d).isDigit = true := by
  interval_cases d <;> decide

theorem digitChar_toNat (d : Nat) (h : d < 10) :
    (Nat.digitChar d).toNat - 48 = d := by
  interval_cases d <;> decide

theorem digitChar_ne_at (d : Nat) (h : d < 10) : Nat.digitChar d ≠ '@' := by
  interval_cases d <;> decide

theorem digitChar_ne_dot (d : Nat) (h : d < 10) : Nat.digitChar d ≠ '.' := by
  interval_cases d <;> decide

theorem splitAll_ne_nil (c : Char) (l : List Char) : splitAll c l ≠ [] := by
  cases l with
  | nil => simp [splitAll]
  | cons x xs =>
    show (match splitAll c xs with
      | [] => [[x]]
      | h :: t => if x = c then [] :: h :: t else (x :: h) :: t) ≠ []
    cases splitAll c xs with
    | nil => simp
    | cons h t =>
      by_cases hx : x = c <;> simp [hx]

theorem splitAll_no_sep (c : Char) (b : List Char) (h : c ∉ b) :
    splitAll c b = [b] := by
  induction b with
  | nil => rfl
  | cons x xs ih =>
    have hx : x ≠ c := fun he => h (he ▸ List.mem_cons_self x xs)
    have hxs : c ∉ xs := fun hm => h (List.mem_cons_of_mem _ hm)
    show (match splitAll c xs with
      | [] => [[x]]
      | h :: t => if x = c then [] :: h :: t else (x :: h) :: t) = [x :: xs]
    rw [ih hxs]
    simp [hx]

theorem splitAll_sep (c : Char) (a b : List Char) (ha : c ∉ a) (hb : c ∉ b) :
    splitAll c (a ++ c :: b) = [a, b] := by
  induction a with
  | nil =>
    show (match splitAll c b with
      | [] => [[c]]
      | h :: t => if c = c then [] :: h :: t else (c :: h) :: t) = [[], b]
    rw [splitAll_no_sep c b hb]
    simp
  | cons x xs ih =>
    have hx : x ≠ c := fun he => ha (he ▸ List.mem_cons_self x xs)
    have hxs : c ∉ xs := fun hm => ha (List.mem_cons_of_mem _ hm)
    show (match splitAll c (xs ++ c :: b) with
      | [] => [[x]]
      | h :: t => if x = c then [] :: h :: t else (x :: h) :: t) = [x :: xs, b]
    rw [ih hxs]
    simp [hx]

theorem parseVal_replicate_zero (k : Nat) (s : List Char) :
    parseVal (List.replicate k '0' ++ s) = parseVal s := by
  induction k with
  | zero => rfl
  | succ n ih =>
    show parseVal ('0' :: (List.replicate n '0' ++ s)) = parseVal s
    unfold parseVal at ih ⊢
    rw [List.foldl_cons]
    rw [show (0 * 10 + ('0'.toNat - 48)) = 0 by decide]
    exact ih

theorem foldl_digitChars (ds : List Nat) (hlt : ∀ d ∈ ds, d < 10) (acc : Nat) :
    List.foldl (fun acc c => acc * 10 + (c.toNat - 48)) acc
      ((ds.reverse).map Nat.digitChar) =
      acc * 10 ^ ds.length + Nat.ofDigits 10 ds := by
  induction ds generalizing acc with
  | nil => simp [Nat.ofDigits_nil]
  | cons d t ih =>
    have hd : d < 10 := hlt d (by simp)
    have ht : ∀ x ∈ t, x < 10 := fun x hx => hlt x (by simp [hx])
    rw [List.reverse_cons, List.map_append, List.foldl_append, ih ht acc]
    simp only [List.map_cons, List.map_nil, List.foldl_cons, List.foldl_nil,
      digitChar_toNat d hd, Nat.ofDigits_cons, List.length_cons]
    ring

theorem parseVal_natChars (n : Nat) : parseVal (natChars n) = n := by
  have h := foldl_digitChars (Nat.digits 10 n)
    (fun d hd => Nat.digits_lt_base (by norm_num) hd) 0
  unfold parseVal natChars
  rw [h, Nat.ofDigits_digits]
  ring

theorem parseVal_pad6_natChars (n : Nat) : parseVal (pad6 (natChars n)) = n := by
  unfold pad6
  rw [parseVal_replicate_zero, parseVal_natChars]

theorem natChars_mem (n : Nat) (c : Char) (hc : c ∈ natChars n) :
    ∃ d, d < 10 ∧ Nat.digitChar d = c := by
  unfold natChars at hc
  rw [List.mem_map] at hc
  obtain ⟨d, hd, rfl⟩ := hc
  rw [List.mem_reverse] at hd
  exact ⟨d, Nat.digits_lt_base (by norm_num) hd, rfl⟩

theorem pad6_mem (n : Nat) (c : Char) (hc : c ∈ pad6 (natChars n)) :
    c.isDigit = true ∧ c ≠ '@' := by
  unfold pad6 at hc
  rw [List.mem_append] at hc
  rcases hc with hc | hc
  · rw [List.eq_of_mem_replicate hc]
    exact ⟨by decide, by decide⟩
  · obtain ⟨d, hd, rfl⟩ := natChars_mem n c hc
    exact ⟨digitChar_isDigit d hd, digitChar_ne_at d hd⟩

theorem pad6_ne_nil (n : Nat) : pad6 (natChars n) ≠ [] := by
  unfold pad6
  intro h
  rcases List.append_eq_nil.1 h with ⟨h1, h2⟩
  rw [h2] at h1
  simp at h1

theorem at_notMem_pad6 (n : Nat) : '@' ∉ pad6 (natChars n) :=
  fun hmem => (pad6_mem n
    '@' hmem).2 rfl

theorem parseNatChars_pad6 (n : Nat) :
    parseNatChars (pad6 (natChars n)) = some n := by
  unfold parseNatChars
  rw [if_pos ⟨pad6_ne_nil n, List.all_eq_true.2 fun c hc => (pad6_mem n c hc).1⟩,
    parseVal_pad6_natChars]

/-- C8: encoding a location with a non-sentinel 1-based index yields the
6-digit-zero-padded `index@path` string, decoding that string returns the
original pair, the sentinel index encodes as the bare path, and decoding a
bare path returns the sentinel with the path: the two functions are mutually
inverse on these inputs. -/
theorem claim8_location_codec (index : Nat) (path : List Char)
    (h1 : index ≠ noIndex) (h2 : '@' ∉ path) :
    locationToRelion index path = pad6 (natChars index) ++ '@' :: path ∧
    relionToLocation (locationToRelion index path) = some (index, path) ∧
    locationToRelion noIndex path = path ∧
    relionToLocation path = some (noIndex, path) := by
  have henc : locationToRelion index path = pad6 (natChars index) ++ '@' :: path := by
    unfold locationToRelion
    rw [if_pos h1]
  refine ⟨henc, ?_, ?_, ?_⟩
  · rw [henc]
    unfold relionToLocation
    rw [if_pos (by simp : '@' ∈ pad6 (natChars index) ++ '@' :: path)]
    rw [splitAll_sep '@' (pad6 (natChars index)) path (at_notMem_pad6 index) h2]
    simp only [parseNatChars_pad6]
  · unfold locationToRelion
    rw [if_neg (by simp)]
  · unfold relionToLocation
    rw [if_neg h2]

/-- Witness for C8 at index 5 and path `a.mrc`. -/
theorem claim8_location_codec_witness :
    ((5:Nat) ≠ noIndex ∧ '@' ∉ ['a', '.', 'm', 'r', 'c']) ∧
    (locationToRelion 5 ['a', '.', 'm', 'r', 'c'] =
      pad6 (natChars 5) ++ '@' :: ['a', '.', 'm', 'r', 'c'] ∧
    relionToLocation (locationToRelion 5 ['a', '.', 'm', 'r', 'c']) =
      some (5, ['a', '.', 'm', 'r', 'c']) ∧
    locationToRelion noIndex ['a', '.', 'm', 'r', 'c'] = ['a', '.', 'm', 'r', 'c'] ∧
    relionToLocation ['a', '.', 'm', 'r', 'c'] =
      some (noIndex, ['a', '.', 'm', 'r', 'c'])) :=
  ⟨⟨by decide, by decide⟩,
   claim8_location_codec 5 ['a', '.', 'm', 'r', 'c'] (by decide) (by decide)⟩

/-- Modelled from the spec: `os.path.basename` on a path given as characters
(the part after the last slash). -/
def baseNameChars (s : List Char) : List Char :=
  (s.reverse.takeWhile (fun c => c ≠ '/')).reverse

/-- Modelled from the spec: `pwutils.removeExt`, the path up to (excluding)
the last dot, unchanged when there is no dot. -/
def removeExtension (s : List Char) : List Char :=
  if '.' ∈ s then ((s.reverse.dropWhile (fun c => c ≠ '.')).drop 1).reverse else s

/-- Modelled from the spec: `pwutils.replaceBaseExt`, the base name of the
path with its extension replaced. -/
def replaceBaseExt (fn ext : List Char) : List Char :=
  removeExtension (baseNameChars fn) ++ '.' :: ext

/-- Zero-pad a digit string on the left to width 5 (`"%05d"`). -/
def pad5 (s : List Char) : List Char := List.replicate (5 - s.length) '0' ++ s

/-- A retry candidate: `'%s_%05d.%s' % (newRoot, counter, extension)`. -/
def candidateName (newRoot : List Char) (counter : Nat) (ext : List Char) :
    List Char :=
  newRoot ++ '_' :: (pad5 (natChars counter) ++ '.' :: ext)

/-- The collision loop of `getUniqueFileName`: while the candidate is among
the values of the mapping built so far, bump the counter and retry with the
suffixed name.  The fuel argument bounds the iterations; callers pass enough
fuel for the loop to find a fresh name. -/
def uniqueLoop (values : List (List Char)) (newRoot ext : List Char) :
    Nat → Nat → List Char → List Char
  | 0, _, newFn => newFn
  | fuel + 1, counter, newFn =>
    if newFn ∈ values then
      uniqueLoop values newRoot ext fuel (counter + 1)
        (candidateName newRoot (counter + 1) ext)
    else newFn

/-- Source `convert_utils.getUniqueFileName`: first candidate is the base name with
the target extension under the output root; on collision with an existing
mapping value a zero-padded numeric suffix is appended before the extension
and the attempt retried until the name is unique. -/
def getUniqueFileName (values : List (List Char)) (outputRoot fn ext : List Char) :
    List Char :=
  let newFn := outputRoot ++ '/' :: replaceBaseExt fn ext
  let newRoot := removeExtension newFn
  uniqueLoop values newRoot ext (values.length + 1) 1 newFn

theorem parseVal_pad5_natChars (n : Nat) : parseVal (pad5 (natChars n)) = n := by
  unfold pad5
  rw [parseVal_replicate_zero, parseVal_natChars]

theorem dot_notMem_pad5 (n : Nat) : '.' ∉ pad5 (natChars n) := by
  intro hc
  unfold pad5 at hc
  rw [List.mem_append] at hc
  rcases hc with hc | hc
  · have := List.eq_of_mem_replicate hc
    simp at this
  · obtain ⟨d, hd, he⟩ := natChars_mem n _ hc
    exact digitChar_ne_dot d hd he

theorem append_sep_inj (c : Char) (a b r r2 : List Char) (ha : c ∉ a) (hb : c ∉ b)
    (h : a ++ c :: r = b ++ c :: r2) : a = b := by
  induction a generalizing b with
  | nil =>
    cases b with
    | nil => rfl
    | cons y ys =>
      rw [List.nil_append] at h
      injection h with h1 h2
      exact absurd (h1 ▸ List.mem_cons_self y ys) hb
  | cons x xs ih =>
    cases b with
    | nil =>
      rw [List.nil_append] at h
      injection h with h1 h2
      exact absurd (h1.symm ▸ List.mem_cons_self x xs) ha
    | cons y ys =>
      injection h with h1 h2
      have hxs : c ∉ xs := fun hm => ha (List.mem_cons_of_mem _ hm)
      have hys : c ∉ ys := fun hm => hb (List.mem_cons_of_mem _ hm)
      rw [h1, ih ys hxs hys h2]

theorem candidateName_inj (newRoot ext : List Char) (k1 k2 : Nat)
    (h : candidateName newRoot k1 ext = candidateName newRoot k2 ext) : k1 = k2 := by
  unfold candidateName at h
  have h2 := List.append_cancel_left h
  injection h2 with h3 h4
  have h5 := append_sep_inj '.' _ _ _ _ (dot_notMem_pad5 k1) (dot_notMem_pad5 k2) h4
  have := congrArg parseVal h5
  rwa [parseVal_pad5_natChars, parseVal_pad5_natChars] at this

theorem exists_fresh_candidate (values : List (List Char)) (newRoot ext : List Char) :
    ∃ j, 1 < j ∧ j ≤ 1 + (values.length + 1) ∧
      candidateName newRoot j ext ∉ values := by
  by_contra hcon
  push_neg at hcon
  have hmap : ∀ i < values.length + 1, candidateName newRoot (i + 2) ext ∈ values :=
    fun i hi => hcon (i + 2) (by omega) (by omega)
  have hnd : ((List.range (values.length + 1)).map
      (fun i => candidateName newRoot (i + 2) ext)).Nodup := by
    apply List.Nodup.map
    · intro i1 i2 h
      have := candidateName_inj newRoot ext (i1 + 2) (i2 + 2) h
      omega
    · exact List.nodup_range _
  have hsub : ((List.range (values.length + 1)).map
      (fun i => candidateName newRoot (i + 2) ext)).toFinset ⊆ values.toFinset := by
    intro x hx
    rw [List.mem_toFinset] at hx ⊢
    rw [List.mem_map] at hx
    obtain ⟨i, hi, rfl⟩ := hx
    rw [List.mem_range] at hi
    exact hmap i hi
  have h1 := List.toFinset_card_of_nodup hnd
  have h2 := Finset.card_le_card hsub
  have h3 := values.toFinset_card_le
  rw [h1] at h2
  simp only [List.length_map, List.length_range] at h2
  omega

theorem uniqueLoop_fresh (values : List (List Char)) (newRoot ext : List Char) :
    ∀ (fuel counter : Nat) (cand : List Char),
      (cand ∉ values ∨ ∃ j, counter < j ∧ j ≤ counter + fuel ∧
        candidateName newRoot j ext ∉ values) →
      uniqueLoop values newRoot ext fuel counter cand ∉ values := by
  intro fuel
  induction fuel with
  | zero =>
    intro counter cand h
    rcases h with h | ⟨j, hj1, hj2, _⟩
    · exact h
    · omega
  | succ n ih =>
    intro counter cand h
    show (if cand ∈ values then
        uniqueLoop values newRoot ext n (counter + 1)
          (candidateName newRoot (counter + 1) ext)
      else cand) ∉ values
    by_cases hc : cand ∈ values
    · rw [if_pos hc]
      apply ih
      rcases h with h | ⟨j, hj1, hj2, hj3⟩
      · exact absurd hc h
      · rcases Nat.lt_or_ge (counter + 1) j with hlt | hge
        · exact Or.inr ⟨j, hlt, by omega, hj3⟩
        · have hj : j = counter + 1 := by omega
          exact Or.inl (hj ▸ hj3)
    · rw [if_neg hc]
      exact hc

theorem getUniqueFileName_fresh (values : List (List Char))
    (outputRoot fn ext : List Char) :
    getUniqueFileName values outputRoot fn ext ∉ values := by
  apply uniqueLoop_fresh
  exact Or.inr (exists_fresh_candidate values _ ext)

/-- The mapping built by `convertBinaryFiles` in its per-file-link mode: each
file gets a unique name computed against the values assigned so far. -/
def convertLinkDict (outputRoot ext : List Char) :
    List (List Char) → List (List Char × List Char) →
    List (List Char × List Char)
  | [], dict => dict
  | fn :: rest, dict =>
    convertLinkDict outputRoot ext rest
      (dict ++ [(fn, getUniqueFileName (dict.map Prod.snd) outputRoot fn ext)])

theorem convertLinkDict_nodup (outputRoot ext : List Char) :
    ∀ (files : List (List Char)) (dict : List (List Char × List Char)),
      (dict.map Prod.snd).Nodup →
      ((convertLinkDict outputRoot ext files dict).map Prod.snd).Nodup := by
  intro files
  induction files with
  | nil => intro dict h; exact h
  | cons fn rest ih =>
    intro dict h
    apply ih
    rw [List.map_append]
    rw [List.nodup_append]
    refine ⟨h, List.nodup_singleton _, ?_⟩
    intro a ha hb
    simp only [List.map_cons, List.map_nil, List.mem_singleton] at hb
    rw [hb] at ha
    exact getUniqueFileName_fresh (dict.map Prod.snd) outputRoot fn ext ha

/-- C9: whenever a candidate output name is already a value of the mapping
built so far, a zero-padded numeric suffix is appended before the extension
and the attempt retried, so the assigned name is never one already present in
the mapping; consequently, during one planning pass all assigned names —
including those of two distinct sources sharing one base output name — are
pairwise distinct. -/
theorem claim9_collision_free :
    (∀ (values : List (List Char)) (outputRoot fn ext : List Char),
      getUniqueFileName values outputRoot fn ext ∉ values) ∧
    (∀ (outputRoot ext : List Char) (files : List (List Char))
      (dict : List (List Char × List Char)), (dict.map Prod.snd).Nodup →
      ((convertLinkDict outputRoot ext files dict).map Prod.snd).Nodup) :=
  ⟨getUniqueFileName_fresh, convertLinkDict_nodup⟩

/-- Witness for C9: two distinct sources `a/p.mrc` and `b/p.mrc`, which share
the base output name `p.mrcs`, receive distinct names in the mapping. -/
theorem claim9_collision_free_witness :
    getUniqueFileName [] ['o'] ['a', '/', 'p', '.', 'm', 'r', 'c']
      ['m', 'r', 'c', 's'] ∉ ([] : List (List Char)) ∧
    ((convertLinkDict ['o'] ['m', 'r', 'c', 's']
      [['a', '/', 'p', '.', 'm', 'r', 'c'], ['b', '/', 'p', '.', 'm', 'r', 'c']]
      []).map Prod.snd).Nodup :=
  ⟨claim9_collision_free.1 [] ['o'] ['a', '/', 'p', '.', 'm', 'r', 'c']
      ['m', 'r', 'c', 's'],
   claim9_collision_free.2 ['o'] ['m', 'r', 'c', 's']
      [['a', '/', 'p', '.', 'm', 'r', 'c'], ['b', '/', 'p', '.', 'm', 'r', 'c']]
      [] List.nodup_nil⟩

/-- Function `createBinaryLink` threaded through the filesystem: the link is created
only when the destination does not yet exist (`os.path.exists` guard), so the
action is a no-op on an existing destination. -/
def createBinaryLink (values : List (List Char)) (outputRoot fn ext : List Char)
    (fs : List (List Char)) : List Char × List (List Char) :=
  let newFn := getUniqueFileName values outputRoot fn ext
  if newFn ∈ fs then (newFn, fs) else (newFn, newFn :: fs)

/-- Function `convertBinaryFiles` in its per-file-link mode (`mrc` sources, `mrcs`
target): folds over the distinct source files, building the old-to-new
mapping and creating guarded links. -/
def convertBinaryFilesLink (outputRoot ext : List Char) :
    List (List Char) → List (List Char × List Char) → List (List Char) →
    List (List Char × List Char) × List (List Char)
  | [], dict, fs => (dict, fs)
  | fn :: rest, dict, fs =>
    let p := createBinaryLink (dict.map Prod.snd) outputRoot fn ext fs
    convertBinaryFilesLink outputRoot ext rest (dict ++ [(fn, p.1)]) p.2

/-- The names assigned during one link-mode pass; they depend only on the
file list and the starting mapping, not on the filesystem. -/
def assignedNames (outputRoot ext : List Char) :
    List (List Char) → List (List Char × List Char) → List (List Char)
  | [], _ => []
  | fn :: rest, dict =>
    let newFn := getUniqueFileName (dict.map Prod.snd) outputRoot fn ext
    newFn :: assignedNames outputRoot ext rest (dict ++ [(fn, newFn)])

theorem createBinaryLink_fst (values : List (List Char))
    (outputRoot fn ext : List Char) (fs : List (List Char)) :
    (createBinaryLink values outputRoot fn ext fs).1 =
      getUniqueFileName values outputRoot fn ext := by
  show (if getUniqueFileName values outputRoot fn ext ∈ fs
      then (getUniqueFileName values outputRoot fn ext, fs)
      else (getUniqueFileName values outputRoot fn ext,
        getUniqueFileName values outputRoot fn ext :: fs)).1 = _
  by_cases hmem : getUniqueFileName values outputRoot fn ext ∈ fs
  · rw [if_pos hmem]
  · rw [if_neg hmem]

theorem createBinaryLink_snd (values : List (List Char))
    (outputRoot fn ext : List Char) (fs : List (List Char)) :
    (createBinaryLink values outputRoot fn ext fs).2 =
      if getUniqueFileName values outputRoot fn ext ∈ fs then fs
      else getUniqueFileName values outputRoot fn ext :: fs := by
  show (if getUniqueFileName values outputRoot fn ext ∈ fs
      then (getUniqueFileName values outputRoot fn ext, fs)
      else (getUniqueFileName values outputRoot fn ext,
        getUniqueFileName values outputRoot fn ext :: fs)).2 = _
  by_cases hmem : getUniqueFileName values outputRoot fn ext ∈ fs
  · rw [if_pos hmem, if_pos hmem]
  · rw [if_neg hmem, if_neg hmem]

theorem convertBinaryFilesLink_cons (outputRoot ext fn : List Char)
    (rest : List (List Char)) (dict : List (List Char × List Char))
    (fs : List (List Char)) :
    convertBinaryFilesLink outputRoot ext (fn :: rest) dict fs =
      convertBinaryFilesLink outputRoot ext rest
        (dict ++ [(fn, getUniqueFileName (dict.map Prod.snd) outputRoot fn ext)])
        (createBinaryLink (dict.map Prod.snd) outputRoot fn ext fs).2 := by
  show convertBinaryFilesLink outputRoot ext rest
      (dict ++ [(fn, (createBinaryLink (dict.map Prod.snd) outputRoot fn ext fs).1)])
      (createBinaryLink (dict.map Prod.snd) outputRoot fn ext fs).2 = _
  rw [createBinaryLink_fst]

theorem convertBinaryFilesLink_dict (outputRoot ext : List Char) :
    ∀ (files : List (List Char)) (dict : List (List Char × List Char))
      (fs : List (List Char)),
      (convertBinaryFilesLink outputRoot ext files dict fs).1 =
        convertLinkDict outputRoot ext files dict := by
  intro files
  induction files with
  | nil => intro dict fs; rfl
  | cons fn rest ih =>
    intro dict fs
    rw [convertBinaryFilesLink_cons, ih]
    rfl

theorem convertBinaryFilesLink_fs_mono (outputRoot ext : List Char) :
    ∀ (files : List (List Char)) (dict : List (List Char × List Char))
      (fs : List (List Char)) (x : List Char), x ∈ fs →
      x ∈ (convertBinaryFilesLink outputRoot ext files dict fs).2 := by
  intro files
  induction files with
  | nil => intro dict fs x hx; exact hx
  | cons fn rest ih =>
    intro dict fs x hx
    rw [convertBinaryFilesLink_cons]
    apply ih
    rw [createBinaryLink_snd]
    by_cases hmem : getUniqueFileName (dict.map Prod.snd) outputRoot fn ext ∈ fs
    · rw [if_pos hmem]
      exact hx
    · rw [if_neg hmem]
      exact List.mem_cons_of_mem _ hx

theorem assignedNames_mem_fs (outputRoot ext : List Char) :
    ∀ (files : List (List Char)) (dict : List (List Char × List Char))
      (fs : List (List Char)) (v : List Char),
      v ∈ assignedNames outputRoot ext files dict →
      v ∈ (convertBinaryFilesLink outputRoot ext files dict fs).2 := by
  intro files
  induction files with
  | nil => intro dict fs v hv; exact absurd hv (List.not_mem_nil v)
  | cons fn rest ih =>
    intro dict fs v hv
    rw [convertBinaryFilesLink_cons]
    rcases List.mem_cons.1 hv with hv | hv
    · subst hv
      apply convertBinaryFilesLink_fs_mono
      rw [createBinaryLink_snd]
      by_cases hmem : getUniqueFileName (dict.map Prod.snd) outputRoot fn ext ∈ fs
      · rw [if_pos hmem]
        exact hmem
      · rw [if_neg hmem]
        exact List.mem_cons_self _ _
    · exact ih _ _ v hv

theorem convertBinaryFilesLink_fs_stable (outputRoot ext : List Char) :
    ∀ (files : List (List Char)) (dict : List (List Char × List Char))
      (fs : List (List Char)),
      (∀ v ∈ assignedNames outputRoot ext files dict, v ∈ fs) →
      (convertBinaryFilesLink outputRoot ext files dict fs).2 = fs := by
  intro files
  induction files with
  | nil => intro dict fs _; rfl
  | cons fn rest ih =>
    intro dict fs hall
    have hmem : getUniqueFileName (dict.map Prod.snd) outputRoot fn ext ∈ fs :=
      hall _ (List.mem_cons_self _ _)
    rw [convertBinaryFilesLink_cons, createBinaryLink_snd, if_pos hmem]
    exact ih _ fs (fun v hv => hall v (List.mem_cons_of_mem _ hv))

/-- A Boolean test that the first list starts the second. -/
def leadsWith : List Char → List Char → Bool
  | [], _ => true
  | _ :: _, [] => false
  | p :: ps, c :: cs => p == c && leadsWith ps cs

/-- Python `str.replace`: substitute every non-overlapping occurrence of a
nonempty pattern by the replacement, scanning left to right. -/
def replaceSub (pat rep : List Char) : List Char → List Char
  | [] => []
  | c :: rest =>
    if pat ≠ [] ∧ leadsWith pat (c :: rest) = true then
      rep ++ replaceSub pat rep (rest.drop (pat.length - 1))
    else c :: replaceSub pat rep rest
  termination_by s => s.length
  decreasing_by
    · simp only [List.length_drop, List.length_cons]
      omega
    · simp only [List.length_cons]
      omega

/-- Function `convertBinaryFiles` in its root-relocation mode (source extension equals
the target): the mapping is a pure textual root substitution, and the single
relocation symlink is created only when the output root does not yet exist. -/
def convertBinaryFilesRelocate (rootDir outputRoot : List Char)
    (files : List (List Char)) (fs : List (List Char)) :
    List (List Char × List Char) × List (List Char) :=
  let fs2 := if outputRoot ∈ fs then fs else outputRoot :: fs
  (files.map (fun fn => (fn, replaceSub rootDir outputRoot fn)), fs2)

/-- C10: invoking the binary-asset planner twice with the same source-file
set, output directory, target extension and flags yields an identical
old-path-to-new-path mapping, and the guarded link (per-file mode) and
relocation-symlink (root mode) actions are no-ops on the second invocation:
the filesystem is left exactly as the first invocation left it. -/
theorem claim10_planner_idempotent (outputRoot ext rootDir : List Char)
    (fs0 : List (List Char)) (files : List (List Char)) :
    ((convertBinaryFilesLink outputRoot ext files []
        (convertBinaryFilesLink outputRoot ext files [] fs0).2).1 =
      (convertBinaryFilesLink outputRoot ext files [] fs0).1 ∧
     (convertBinaryFilesLink outputRoot ext files []
        (convertBinaryFilesLink outputRoot ext files [] fs0).2).2 =
      (convertBinaryFilesLink outputRoot ext files [] fs0).2) ∧
    ((convertBinaryFilesRelocate rootDir outputRoot files
        (convertBinaryFilesRelocate rootDir outputRoot files fs0).2).1 =
      (convertBinaryFilesRelocate rootDir outputRoot files fs0).1 ∧
     (convertBinaryFilesRelocate rootDir outputRoot files
        (convertBinaryFilesRelocate rootDir outputRoot files fs0).2).2 =
      (convertBinaryFilesRelocate rootDir outputRoot files fs0).2) := by
  refine ⟨⟨?_, ?_⟩, ?_, ?_⟩
  · rw [convertBinaryFilesLink_dict, convertBinaryFilesLink_dict]
  · apply convertBinaryFilesLink_fs_stable
    intro v hv
    exact assignedNames_mem_fs outputRoot ext files [] fs0 v hv
  · rfl
  · show (if outputRoot ∈ (convertBinaryFilesRelocate rootDir outputRoot files fs0).2
        then (convertBinaryFilesRelocate rootDir outputRoot files fs0).2
        else outputRoot :: (convertBinaryFilesRelocate rootDir outputRoot files fs0).2) = _
    rw [if_pos]
    show outputRoot ∈ (if outputRoot ∈ fs0 then fs0 else outputRoot :: fs0)
    by_cases h0 : outputRoot ∈ fs0
    · rw [if_pos h0]
      exact h0
    · rw [if_neg h0]
      exact List.mem_cons_self _ _

end RelionConvert
